import Mathlib

set_option autoImplicit false
set_option linter.unusedVariables false
set_option linter.unusedSectionVars false

/-!
Shallow embedding of the go-mcache TTL cache (src/cache.go).

The Go value `Cache[K, V]` holds a map `cache : map[K]valuePtr[K, V]`, a doubly
linked queue of `item[K]` nodes ordered by ascending expiration (fields
`head`/`tail`), and a background timer goroutine re-armed through `setTimer`.
Each `valuePtr` stores the cached value and a pointer `Ptr` to the unique queue
node carrying the same key, and the node stores the key and the absolute
expiration time `Expires`.

The embedding replaces the pointer structure by plain lists:
  * `index`  models the map as an association list from key to value
    (the `Ptr` back-reference is recovered as the unique queue node with the
    same key, which is how every reachable state of the Go code wires it);
  * `queue`  models the linked list head-to-tail as a list of
    (key, expiration) pairs, so `head` is `queue.head?` and `tail` the last
    element;
  * `timer`  models the expiration instant the single background timer is
    currently armed for (`none` before the first `setTimer` call).
Time and durations are absolute integers; `time.Now()` is passed explicitly as
the `now` argument of the operations that read the clock.  A Go run-time fault
(nil pointer dereference) is modelled by `Except.error` carrying the heap state
at the moment of the fault.
-/

namespace GoMcache

structure Cache (K V : Type) where
  index : List (K × V)
  queue : List (K × Int)
  timer : Option Int
deriving DecidableEq

variable {K V : Type} [DecidableEq K] [Inhabited V]

/-- Go map read `v, ok := c.cache[key]`: the value stored for `key`, if any. -/
def lookupVal (key : K) : List (K × V) → Option V
  | [] => none
  | a :: rest => if a.1 = key then some a.2 else lookupVal key rest

/-- Go map write `c.cache[key] = value`: replace the entry for `key` if it is
present, otherwise add it. -/
def insertVal (key : K) (value : V) : List (K × V) → List (K × V)
  | [] => [(key, value)]
  | a :: rest => if a.1 = key then (key, value) :: rest else a :: insertVal key value rest

/-- New creates an empty cache (`New` in cache.go): empty map, nil head/tail,
no timer armed yet. -/
def New : Cache K V := ⟨[], [], none⟩

/-- setTimer in cache.go: drain the stop channel and start a timer targeting
`c.head.Expires`.  The model records the armed target.  Every Go call site
guards `c.head != nil`, so the empty case is unreachable there. -/
def setTimer (s : Cache K V) : Cache K V :=
  match s.queue with
  | [] => s
  | n :: _ => { s with timer := some n.2 }

/-- The scan of `Set` (cache.go lines 68-81), walking the queue from the tail
toward the head, given here the reversed queue (tail first).  At a node `n`
with `n.Expires.Before(i.Expires)` the new node is inserted after `n`
(`insertAfter`); at the head (`n.Prev == nil`) it is inserted before
(`insertBefore`) and `setTimer` is called, which the returned Boolean records.
The result list is again in reversed (tail first) order. -/
def scanFromTail (e : Int) (node : K × Int) : List (K × Int) → List (K × Int) × Bool
  | [] => ([node], true)
  | n :: rest =>
    if n.2 < e then (node :: n :: rest, false)
    else
      match rest with
      | [] => ([n, node], true)
      | _ :: _ =>
        let r := scanFromTail e node rest
        (n :: r.1, r.2)

/-- The tail-ward scan of `Refresh` (cache.go lines 190-202), walking from a
start node toward the tail: insert before the first node with
`expires.Before(n.Expires)`, or after the last node when the tail is reached
(`n.Next == nil`). -/
def scanTowardTail (e : Int) (node : K × Int) : List (K × Int) → List (K × Int)
  | [] => [node]
  | n :: rest =>
    if e < n.2 then node :: n :: rest
    else
      match rest with
      | [] => [n, node]
      | _ :: _ => n :: scanTowardTail e node rest

/-- Decomposition of the queue at the unique node holding `key` (the node the
back-pointer `v.Ptr` designates): `splitQueue key q = some (p, old, suf)` when
`q = p ++ (key, old) :: suf` and `key` does not occur in `p`.  `remove(v.Ptr)`
(cache.go lines 327-345) splices that node out, leaving `p ++ suf`, and
returns the start node for the Refresh scan: the successor `suf.head` when it
exists, otherwise the predecessor (the last node of `p`), otherwise nil. -/
def splitQueue (key : K) : List (K × Int) → Option (List (K × Int) × Int × List (K × Int))
  | [] => none
  | n :: rest =>
    if n.1 = key then some ([], n.2, rest)
    else (splitQueue key rest).map (fun x => (n :: x.1, x.2.1, x.2.2))

/-- delete (the private method, cache.go lines 310-325): no-op returning false
when `c.head == nil` or the key is not in the map; otherwise remove the node
referenced by the map entry from the queue and delete the map entry. -/
def deleteKey (key : K) (s : Cache K V) : Cache K V × Bool :=
  match s.queue with
  | [] => (s, false)
  | _ :: _ =>
    match lookupVal key s.index with
    | none => (s, false)
    | some _ =>
      ({ index := s.index.eraseP (fun a => a.1 == key),
         queue := s.queue.eraseP (fun a => a.1 == key),
         timer := s.timer }, true)

/-- The insertion part of `Set` after the optional removal of the replaced
entry: store the value in the map; if the queue is empty the new node becomes
head and tail and the timer is armed; otherwise run the tail-ward scan, arming
the timer only when the new node became the head. -/
def setInsert (e : Int) (key : K) (value : V) (s : Cache K V) : Cache K V :=
  match s.queue with
  | [] => { index := insertVal key value s.index, queue := [(key, e)], timer := some e }
  | n :: rest =>
    let r := scanFromTail e (key, e) ((n :: rest).reverse)
    { index := insertVal key value s.index,
      queue := r.1.reverse,
      timer := if r.2 then some e else s.timer }

/-- Set (cache.go lines 38-84): if the key exists the old entry is fully
removed first (via the private delete, which does not touch the timer), then a
fresh node with expiration `now + ttl` is inserted. -/
def Set (now : Int) (key : K) (value : V) (ttl : Int) (s : Cache K V) : Cache K V :=
  let s1 := if (lookupVal key s.index).isSome then (deleteKey key s).1 else s
  setInsert (now + ttl) key value s1

/-- Get (cache.go lines 87-95): map lookup only; a missing key yields the Go
zero value of `V` (modelled by `default`) and false. -/
def Get (key : K) (s : Cache K V) : V × Bool :=
  match lookupVal key s.index with
  | none => (default, false)
  | some v => (v, true)

/-- Swap (cache.go lines 98-118): on a present key store the new value with
the same node pointer and return the old value; on an absent key return the
argument value and false without touching anything. -/
def Swap (key : K) (value : V) (s : Cache K V) : V × Bool × Cache K V :=
  match lookupVal key s.index with
  | none => (value, false, s)
  | some oldValue => (oldValue, true, { s with index := insertVal key value s.index })

/-- Delete (cache.go lines 121-135): remember whether the key was at the head,
run the private delete, and re-arm the timer when the head was removed and the
queue is still non-empty. -/
def Delete (key : K) (s : Cache K V) : Cache K V × Bool :=
  let timerResetNeeded : Bool := match s.queue with | [] => false | n :: _ => n.1 == key
  let r := deleteKey key s
  if r.1.queue ≠ [] ∧ timerResetNeeded then (setTimer r.1, r.2) else r

/-- GetAndDelete (cache.go lines 138-153): map lookup, then the private delete
when found.  Unlike `Delete`, no timer reset is performed. -/
def GetAndDelete (key : K) (s : Cache K V) : V × Bool × Cache K V :=
  match lookupVal key s.index with
  | none => (default, false, s)
  | some v => (v, true, (deleteKey key s).1)

/-- Update (cache.go lines 156-171).  The Go body reads the map entry into the
local variable `v` (`v, ok := c.cache[key]`), which copies the `valuePtr`
struct, and then assigns `v.Value = value` to that local copy.  No write-back
into the map follows, so the cache state is unchanged even when true is
returned. -/
def Update (key : K) (value : V) (s : Cache K V) : Cache K V × Bool :=
  match lookupVal key s.index with
  | none => (s, false)
  | some _ => (s, true)

/-- Refresh (cache.go lines 174-228): on a present key, remove its node from
the queue and re-insert it at the position of the new expiration
`now + ttl`, scanning toward the tail when the expiration grew and toward the
head otherwise; re-arm the timer when the key was at the head before or after
the move.  The scan starts at the neighbor returned by `remove`; when the
removed node was the only one, that start node is nil and the first loop
iteration dereferences it, a run-time panic.  `Except.error` carries the state
at the fault: the node is already gone from the queue while the map still
holds the key. -/
def Refresh (now : Int) (key : K) (ttl : Int) (s : Cache K V) :
    Except (Cache K V) (Cache K V × Bool) :=
  match lookupVal key s.index with
  | none => .ok (s, false)
  | some _ =>
    match splitQueue key s.queue with
    | none => .error s
    | some (p, old, suf) =>
      let e := now + ttl
      let wasFirst : Bool := match s.queue with | [] => false | n :: _ => n.1 == key
      match suf, p.reverse with
      | [], [] => .error { s with queue := [] }
      | sn :: srest, _ =>
        let q' := if old < e
          then p ++ scanTowardTail e (key, e) (sn :: srest)
          else (scanFromTail e (key, e) (sn :: p.reverse)).1.reverse ++ srest
        let s' : Cache K V := { s with queue := q' }
        let headNow : Bool := match q' with | [] => false | n :: _ => n.1 == key
        .ok (if wasFirst || headNow then setTimer s' else s', true)
      | [], pn :: prest =>
        let q' := if old < e
          then prest.reverse ++ scanTowardTail e (key, e) [pn]
          else (scanFromTail e (key, e) (pn :: prest)).1.reverse
        let s' : Cache K V := { s with queue := q' }
        let headNow : Bool := match q' with | [] => false | n :: _ => n.1 == key
        .ok (if wasFirst || headNow then setTimer s' else s', true)

/-- The loop of `Evict` (cache.go line 234): while `evicted < n`, the head
exists and the private delete of the head key succeeds, count one eviction.
Each successful delete removes the head node, so the queue length bounds the
number of successful iterations; `fuel` makes that bound explicit, and with
`fuel` at least the queue length (as `Evict` passes) the zero-fuel clause is
reached only when the queue is already empty or the count target was hit, in
which case it returns exactly what the Go loop exit returns. -/
def evictLoop : Nat → Int → Int → Cache K V → Cache K V × Int
  | 0, _, evicted, s => (s, evicted)
  | fuel + 1, n, evicted, s =>
    if evicted < n then
      match s.queue with
      | [] => (s, evicted)
      | hd :: _ =>
        let r := deleteKey hd.1 s
        if r.2 then evictLoop fuel n (evicted + 1) r.1 else (s, evicted)
    else (s, evicted)

/-- Evict (cache.go lines 231-244): run the loop, then re-arm the timer once
when anything was evicted and entries remain. -/
def Evict (n : Int) (s : Cache K V) : Cache K V × Int :=
  let r := evictLoop s.queue.length n 0 s
  if 0 < r.2 ∧ r.1.queue ≠ [] then (setTimer r.1, r.2) else r

/-- The per-key loop of `Range` (cache.go lines 256-264) over the snapshotted
keys.  Each step reads the CURRENT map state (`c.cache[keys[k]].Value` under a
fresh read lock), so a key deleted since the snapshot reads as the Go zero
value (`default`); the callback may mutate the cache, modelled by `fn`
returning the continue flag together with the successor state.  The first
component instruments the run with the trace of (key, value) arguments the
callback received. -/
def rangeLoop (fn : K → V → Cache K V → Bool × Cache K V) :
    List K → Cache K V → List (K × V) × Cache K V
  | [], s => ([], s)
  | k :: rest, s =>
    let v := (lookupVal k s.index).getD default
    let r := fn k v s
    if r.1 then
      let t := rangeLoop fn rest r.2
      ((k, v) :: t.1, t.2)
    else ([(k, v)], r.2)

/-- Range (cache.go lines 248-265): snapshot the keys in queue (eviction)
order under a read lock, then run the per-key loop. -/
def Range (fn : K → V → Cache K V → Bool × Cache K V) (s : Cache K V) : Cache K V :=
  (rangeLoop fn (s.queue.map Prod.fst) s).2

/-- Len (cache.go lines 268-273): size of the map. -/
def Len (s : Cache K V) : Nat := s.index.length

/-- ticker (cache.go lines 284-308), in the branch where the timer fires
(`<-t.C` wins): under the lock, if the head exists delete its key from the map
and splice the head out of the queue; then, if a head remains, re-arm. -/
def tickerFire (s : Cache K V) : Cache K V :=
  let s1 := match s.queue with
    | [] => s
    | hd :: rest => { s with index := s.index.eraseP (fun a => a.1 == hd.1), queue := rest }
  match s1.queue with
  | [] => s1
  | _ :: _ => setTimer s1

/-- A completed operation of the package, as issued by a caller (plus the
natural firing of the armed timer).  `Range` mutates the cache only through
the cache operations its callback performs, so it adds no further mutation
shape. -/
inductive Op (K V : Type) where
  | set (now : Int) (key : K) (value : V) (ttl : Int)
  | get (key : K)
  | swap (key : K) (value : V)
  | delete (key : K)
  | getAndDelete (key : K)
  | update (key : K) (value : V)
  | refresh (now : Int) (key : K) (ttl : Int)
  | evict (n : Int)
  | fire

/-- The state after an operation completes.  `Get` does not mutate.  A
`Refresh` call that panics never completes (and in the Go program leaves the
mutex locked forever), so the completed-operation trace keeps the prior state
in that case. -/
def applyOp : Op K V → Cache K V → Cache K V
  | .set now key value ttl, s => Set now key value ttl s
  | .get _, s => s
  | .swap key value, s => (Swap key value s).2.2
  | .delete key, s => (Delete key s).1
  | .getAndDelete key, s => (GetAndDelete key s).2.2
  | .update key value, s => (Update key value s).1
  | .refresh now key ttl, s =>
    match Refresh now key ttl s with
    | .ok r => r.1
    | .error _ => s
  | .evict n, s => (Evict n s).1
  | .fire, s => tickerFire s

/-- A sequence of completed operations applied from a starting state. -/
def run (ops : List (Op K V)) (s : Cache K V) : Cache K V :=
  ops.foldl (fun t op => applyOp op t) s

/-- The joint structural invariant of index and queue: the key lists of the
two structures are permutations of each other (same size, every map entry
backed by exactly one live queue node), the keys are pairwise distinct, and
the queue is ordered by non-decreasing expiration. -/
def Inv (s : Cache K V) : Prop :=
  (s.index.map Prod.fst).Perm (s.queue.map Prod.fst) ∧
  (s.index.map Prod.fst).Nodup ∧
  s.queue.Pairwise (fun a b => a.2 ≤ b.2)

instance [DecidableEq V] (s : Cache K V) : Decidable (Inv s) := by
  unfold Inv
  infer_instance

/-- C1: for a present key, Update(key, value) returns true and (per the spec)
should replace the stored value; the code instead assigns the new value to a
local copy of the map entry and never writes it back.  At the concrete input
below, Update 1 99 returns true, the state is bit-for-bit unchanged, and a
subsequent Get still returns the old value 11, contradicting the claim that
Get afterwards returns the new value. -/
theorem update_returns_true_but_stores_nothing :
    (Update 1 99 (Set 0 1 11 10 (New : Cache Nat Nat))).2 = true ∧
    (Update 1 99 (Set 0 1 11 10 (New : Cache Nat Nat))).1 = Set 0 1 11 10 New ∧
    Get 1 (Update 1 99 (Set 0 1 11 10 (New : Cache Nat Nat))).1 = (11, true) := by
  exact ⟨rfl, rfl, rfl⟩

/-- C2: Refresh on a cache that contains exactly one entry does not succeed:
`remove` on the only node returns a nil start pointer and the first iteration
of the reposition scan dereferences it, a run-time panic.  At the concrete
singleton cache below, Refresh faults (no `.ok` result, hence no `true`
return), with the node already unlinked from the queue. -/
theorem refresh_singleton_panics :
    Refresh 5 1 10 (Set 0 1 11 10 (New : Cache Nat Nat)) =
      Except.error ⟨[(1, 11)], [], some 10⟩ := by
  exact rfl

/-- C3: GetAndDelete of the head entry does not re-arm the scheduler.  In the
concrete state below the cache holds entries 1 (expires 10, head) and 2
(expires 20) with the timer armed for 10; after GetAndDelete 1 the head is
entry 2 expiring at 20 while the outstanding wait still targets 10, so the
head key is not what the scheduler will expire next, contradicting the
claim. -/
theorem getAndDelete_head_leaves_timer_stale :
    ((GetAndDelete 1 (Set 0 2 22 20 (Set 0 1 11 10 (New : Cache Nat Nat)))).2.2.queue =
      [(2, 20)]) ∧
    ((GetAndDelete 1 (Set 0 2 22 20 (Set 0 1 11 10 (New : Cache Nat Nat)))).2.2.timer =
      some 10) ∧
    some (10 : Int) ≠ some (20 : Int) := by
  exact ⟨rfl, rfl, by decide⟩

/-- C4 counterexample: two Set calls with equal expiration (both expire at
time 10).  The tail-ward scan skips the existing equal-expiration entry
(since its expiration is not strictly earlier) and inserts the new node at
the head, so key 2 ends up BEFORE key 1 — the queue is [(2,10), (1,10)], not
the [(1,10), (2,10)] the claim (FIFO among ties, new entry after existing
ones) requires. -/
theorem set_equal_expiration_goes_first :
    (Set 0 2 22 10 (Set 0 1 11 10 (New : Cache Nat Nat))).queue = [(2, 10), (1, 10)] ∧
    (Set 0 2 22 10 (Set 0 1 11 10 (New : Cache Nat Nat))).queue ≠ [(1, 10), (2, 10)] := by
  exact ⟨rfl, by decide⟩

/-- C5: an entry can be removed by automatic expiration strictly before its
TTL elapses.  Concretely: Set key 1 (expires 10), Set key 2 (expires 20),
then Set key 1 again (expires 30).  The replacement removes the old head but
the timer stays armed for 10; when that stale wait fires, ticker removes the
current head — entry 2, whose expiration 20 has not been reached — so Get 2
already returns not-found at time 10, contradicting the never-before-TTL
claim. -/
theorem set_replace_head_then_fire_drops_live_entry :
    (Set 0 1 11 30 (Set 0 2 22 20 (Set 0 1 11 10 (New : Cache Nat Nat)))).timer = some 10 ∧
    (Set 0 1 11 30 (Set 0 2 22 20 (Set 0 1 11 10 (New : Cache Nat Nat)))).queue =
      [(2, 20), (1, 30)] ∧
    (Get 2 (tickerFire
      (Set 0 1 11 30 (Set 0 2 22 20 (Set 0 1 11 10 (New : Cache Nat Nat)))))).2 = false := by
  exact ⟨rfl, rfl, rfl⟩

/-- C6: a faulting operation can leave the state partially applied.  Refresh
on the singleton cache below panics after `remove` has already spliced the
node out of the queue and before anything is written back: the state at the
fault differs from the pre-state and has one index entry against zero queue
nodes, so index and queue are desynchronized rather than unchanged. -/
theorem refresh_fault_leaves_partial_state :
    Refresh 5 1 10 (Set 0 1 11 10 (New : Cache Nat Nat)) =
      Except.error ⟨[(1, 11)], [], some 10⟩ ∧
    (⟨[(1, 11)], [], some 10⟩ : Cache Nat Nat) ≠ Set 0 1 11 10 New ∧
    (Cache.index (⟨[(1, 11)], [], some 10⟩ : Cache Nat Nat)).length ≠
      (Cache.queue (⟨[(1, 11)], [], some 10⟩ : Cache Nat Nat)).length := by
  exact ⟨rfl, by decide, by decide⟩

theorem takeWhile_concat_of_neg {α : Type} (p : α → Bool) (A : List α) (n : α)
    (h : p n = false) : (A ++ [n]).takeWhile p = A.takeWhile p := by
  induction A with
  | nil => simp [List.takeWhile_cons, h]
  | cons a A ih => cases ha : p a <;> simp [List.takeWhile_cons, ha, ih]

theorem dropWhile_concat_of_neg {α : Type} (p : α → Bool) (A : List α) (n : α)
    (h : p n = false) : (A ++ [n]).dropWhile p = A.dropWhile p ++ [n] := by
  induction A with
  | nil => simp [List.dropWhile_cons, h]
  | cons a A ih => cases ha : p a <;> simp [List.dropWhile_cons, ha, ih]

/-- The Refresh tail-ward scan inserts the node after the entries whose
expiration is less than or equal to the new expiration and before the strictly
later ones (it stops at the first strictly later node). -/
theorem scanTowardTail_eq (e : Int) (kv : K × Int) (L : List (K × Int)) :
    scanTowardTail e kv L =
      L.takeWhile (fun a => a.2 ≤ e) ++ kv :: L.dropWhile (fun a => a.2 ≤ e) := by
  induction L with
  | nil => rfl
  | cons n rest ih =>
    by_cases h : e < n.2
    · have hp : ¬ (n.2 ≤ e) := by omega
      simp [scanTowardTail, h, hp]
    · have hp : n.2 ≤ e := by omega
      cases rest with
      | nil => simp [scanTowardTail, h, hp]
      | cons m rest2 =>
        simp only [scanTowardTail, if_neg h]
        simpa [hp] using ih

/-- The Set scan, read on the queue in head-to-tail order: on a sorted queue,
walking from the tail and inserting after the first strictly earlier node
places the new node after the strictly earlier entries and before all entries
with an expiration greater than or equal to the new one. -/
theorem scanFromTail_sorted_eq (e : Int) (kv : K × Int) (L : List (K × Int))
    (hs : L.Pairwise (fun a b => a.2 ≤ b.2)) :
    (scanFromTail e kv L.reverse).1.reverse =
      L.takeWhile (fun a => a.2 < e) ++ kv :: L.dropWhile (fun a => a.2 < e) := by
  induction L using List.reverseRecOn with
  | nil => rfl
  | append_singleton A n ih =>
    have hA : A.Pairwise (fun a b => a.2 ≤ b.2) := (List.pairwise_append.mp hs).1
    have hle : ∀ x ∈ A, x.2 ≤ n.2 := by
      intro x hx
      exact (List.pairwise_append.mp hs).2.2 x hx n (by simp)
    rw [List.reverse_append, List.reverse_singleton, List.singleton_append]
    by_cases h : n.2 < e
    · have hall : ∀ x ∈ A ++ [n], (fun a : K × Int => decide (a.2 < e)) x = true := by
        intro x hx
        rcases List.mem_append.mp hx with hx | hx
        · simpa using lt_of_le_of_lt (hle x hx) h
        · simp only [List.mem_singleton] at hx
          subst hx
          simpa using h
      rw [List.takeWhile_eq_self_iff.mpr hall, List.dropWhile_eq_nil_iff.mpr hall]
      simp [scanFromTail, h]
    · cases hrev : A.reverse with
      | nil =>
        have hAnil : A = [] := List.reverse_eq_nil_iff.mp hrev
        subst hAnil
        simp [scanFromTail, h, List.takeWhile_cons, List.dropWhile_cons]
      | cons m B =>
        have ih2 := ih hA
        rw [hrev] at ih2
        have step : (scanFromTail e kv (n :: m :: B)).1 =
            n :: (scanFromTail e kv (m :: B)).1 := by
          simp [scanFromTail, h]
        rw [step, List.reverse_cons, ih2,
          takeWhile_concat_of_neg _ A n (by simpa using h),
          dropWhile_concat_of_neg _ A n (by simpa using h)]
        simp

/-- A Go map write makes the written key read back the written value. -/
theorem lookupVal_insertVal_self (key : K) (value : V) (l : List (K × V)) :
    lookupVal key (insertVal key value l) = some value := by
  induction l with
  | nil => simp [insertVal, lookupVal]
  | cons a rest ih =>
    by_cases h : a.1 = key
    · simp [insertVal, lookupVal, h]
    · simp [insertVal, lookupVal, h, ih]

/-- A Go map write leaves every other key unchanged. -/
theorem lookupVal_insertVal_ne (k2 key : K) (value : V) (l : List (K × V))
    (h : k2 ≠ key) : lookupVal k2 (insertVal key value l) = lookupVal k2 l := by
  induction l with
  | nil => simp [insertVal, lookupVal, Ne.symm h]
  | cons a rest ih =>
    by_cases ha : a.1 = key
    · simp [insertVal, lookupVal, ha, Ne.symm h]
    · simp [insertVal, lookupVal, ha, ih]

/-- A Go map read misses exactly when the key is absent. -/
theorem lookupVal_eq_none_iff (key : K) (l : List (K × V)) :
    lookupVal key l = none ↔ key ∉ l.map Prod.fst := by
  induction l with
  | nil => simp [lookupVal]
  | cons a rest ih =>
    by_cases h : a.1 = key
    · simp [lookupVal, h]
    · rw [List.map_cons, List.mem_cons]
      simp only [lookupVal, if_neg h]
      rw [ih]
      constructor
      · intro hn hmem
        rcases hmem with hmem | hmem
        · exact h hmem.symm
        · exact hn hmem
      · intro hn hmem
        exact hn (Or.inr hmem)

/-- A Go map read hits exactly when the key is present. -/
theorem lookupVal_isSome_iff (key : K) (l : List (K × V)) :
    (lookupVal key l).isSome ↔ key ∈ l.map Prod.fst := by
  rw [← Decidable.not_not (p := key ∈ l.map Prod.fst), ← lookupVal_eq_none_iff]
  cases lookupVal key l <;> simp

/-- Writing an absent key appends it. -/
theorem insertVal_of_not_mem (key : K) (value : V) (l : List (K × V))
    (h : key ∉ l.map Prod.fst) : insertVal key value l = l ++ [(key, value)] := by
  induction l with
  | nil => rfl
  | cons a rest ih =>
    simp only [List.map_cons, List.mem_cons] at h
    push_neg at h
    simp [insertVal, Ne.symm h.1, ih h.2]

/-- Writing a present key keeps the key list unchanged. -/
theorem map_fst_insertVal_of_mem (key : K) (value : V) (l : List (K × V))
    (h : key ∈ l.map Prod.fst) : (insertVal key value l).map Prod.fst = l.map Prod.fst := by
  induction l with
  | nil => simp at h
  | cons a rest ih =>
    by_cases ha : a.1 = key
    · simp [insertVal, ha]
    · simp only [List.map_cons, List.mem_cons] at h
      rcases h with h | h

      · exact absurd h.symm ha
      · simp [insertVal, ha, ih h]

/-- Deleting a key from a Go map (or the matching node from the queue)
erases exactly its occurrence from the key list. -/
theorem map_fst_eraseP {β : Type} (key : K) (l : List (K × β)) :
    (l.eraseP (fun a => a.1 == key)).map Prod.fst = (l.map Prod.fst).erase key := by
  induction l with
  | nil => rfl
  | cons a rest ih =>
    by_cases h : a.1 = key
    · rw [List.eraseP_cons_of_pos (by simp [h]), List.map_cons, h, List.erase_cons_head]
    · rw [List.eraseP_cons_of_neg (by simp [h]), List.map_cons, List.map_cons,
        List.erase_cons_tail (by simp [h]), ih]

/-- C4 (amended): on a sorted queue, Set of an absent key with expiration
`now + ttl` places the new node after all strictly earlier entries and
before every entry whose expiration is greater than or equal to the new one
— in particular BEFORE existing equal-expiration entries (LIFO among ties),
because the tail-to-head scan stops at the first strictly earlier
neighbor. -/
theorem set_insert_position (now : Int) (key : K) (value : V) (ttl : Int) (s : Cache K V)
    (hsorted : s.queue.Pairwise (fun a b => a.2 ≤ b.2))
    (habsent : lookupVal key s.index = none) :
    (Set now key value ttl s).queue =
      s.queue.takeWhile (fun a => a.2 < now + ttl) ++
        (key, now + ttl) :: s.queue.dropWhile (fun a => a.2 < now + ttl) := by
  unfold Set
  rw [habsent]
  simp only [Option.isSome_none, Bool.false_eq_true, if_false]
  cases hq : s.queue with
  | nil =>
    simp [setInsert, hq]
  | cons n rest =>
    rw [hq] at hsorted
    have hchar := scanFromTail_sorted_eq (now + ttl) (key, now + ttl) (n :: rest) hsorted
    simp only [setInsert, hq]
    exact hchar

/-- C4 witness: inserting key 2 with expiration 10 into the sorted singleton
queue [(1, 10)] of a cache not containing 2 yields [(2, 10), (1, 10)]. -/
theorem set_insert_position_witness :
    (Set 0 1 11 10 (New : Cache Nat Nat)).queue.Pairwise (fun a b => a.2 ≤ b.2) ∧
    lookupVal 2 (Set 0 1 11 10 (New : Cache Nat Nat)).index = none ∧
    (Set 0 2 22 10 (Set 0 1 11 10 (New : Cache Nat Nat))).queue =
      (Set 0 1 11 10 (New : Cache Nat Nat)).queue.takeWhile (fun a => a.2 < 0 + 10) ++
        (2, 0 + 10) :: (Set 0 1 11 10 (New : Cache Nat Nat)).queue.dropWhile
          (fun a => a.2 < 0 + 10) := by
  refine ⟨by decide, rfl, ?_⟩
  exact set_insert_position 0 2 22 10 (Set 0 1 11 10 New) (by decide) rfl

theorem setTimer_index (s : Cache K V) : (setTimer s).index = s.index := by
  cases hq : s.queue <;> simp [setTimer, hq]

theorem setTimer_queue (s : Cache K V) : (setTimer s).queue = s.queue := by
  cases hq : s.queue <;> simp [setTimer, hq]

/-- The invariant only concerns index and queue, never the timer. -/
theorem inv_parts {s t : Cache K V} (hidx : t.index = s.index) (hq : t.queue = s.queue)
    (hinv : Inv s) : Inv t := by
  unfold Inv at hinv ⊢
  rw [hidx, hq]
  exact hinv

theorem inv_setTimer (s : Cache K V) (hinv : Inv s) : Inv (setTimer s) :=
  inv_parts (setTimer_index s) (setTimer_queue s) hinv

/-- The private delete preserves the joint invariant. -/
theorem inv_deleteKey (key : K) (s : Cache K V) (hinv : Inv s) : Inv (deleteKey key s).1 := by
  cases hq : s.queue with
  | nil => simpa [deleteKey, hq] using hinv
  | cons hd rest =>
    cases hlook : lookupVal key s.index with
    | none => simpa [deleteKey, hq, hlook] using hinv
    | some v =>
      obtain ⟨hperm, hnodup, hsorted⟩ := hinv
      simp only [deleteKey, hq, hlook]
      refine ⟨?_, ?_, ?_⟩
      · rw [map_fst_eraseP, map_fst_eraseP, ← hq]
        exact hperm.erase key
      · rw [map_fst_eraseP]
        exact List.Nodup.erase key hnodup
      · rw [← hq]
        exact List.Pairwise.sublist (List.eraseP_sublist s.queue) hsorted

/-- Deleting the head key via the private delete pops exactly the head node. -/
theorem deleteKey_head (hd : K × Int) (rest : List (K × Int)) (s : Cache K V)
    (hq : s.queue = hd :: rest) (hfound : (lookupVal hd.1 s.index).isSome) :
    (deleteKey hd.1 s).2 = true ∧ (deleteKey hd.1 s).1.queue = rest ∧
    (deleteKey hd.1 s).1.index = s.index.eraseP (fun a => a.1 == hd.1) := by
  obtain ⟨v, hlook⟩ := Option.isSome_iff_exists.mp hfound
  refine ⟨by simp [deleteKey, hq, hlook], ?_, by simp [deleteKey, hq, hlook]⟩
  simp only [deleteKey, hq, hlook]
  exact List.eraseP_cons_of_pos (by simp)

/-- The Evict loop removes heads one at a time: starting the count at `ev`
with target `n`, it removes the first `min (n - ev) m` nodes of an m-node
queue and returns the count advanced by that amount, keeping the
invariant. -/
theorem evictLoop_spec (fuel : Nat) :
    ∀ (s : Cache K V) (ev n : Int), Inv s → s.queue.length ≤ fuel → ev ≤ n →
      (evictLoop fuel n ev s).2 = ev + min (n - ev) (s.queue.length : Int) ∧
      (evictLoop fuel n ev s).1.queue =
        s.queue.drop (min (n - ev) (s.queue.length : Int)).toNat ∧
      Inv (evictLoop fuel n ev s).1 := by
  induction fuel with
  | zero =>
    intro s ev n hinv hfuel hev
    have hq : s.queue = [] := List.eq_nil_of_length_eq_zero (by omega)
    have h2 : evictLoop 0 n ev s = (s, ev) := rfl
    rw [h2]
    dsimp only
    rw [hq]
    refine ⟨by simp only [List.length_nil, Nat.cast_zero]; omega, by simp, hinv⟩
  | succ fuel ih =>
    intro s ev n hinv hfuel hev
    by_cases hlt : ev < n
    · cases hq : s.queue with
      | nil =>
        have h2 : evictLoop (fuel + 1) n ev s = (s, ev) := by
          simp only [evictLoop, if_pos hlt, hq]
        rw [h2]
        dsimp only
        rw [hq]
        refine ⟨by simp only [List.length_nil, Nat.cast_zero]; omega, by simp, hinv⟩
      | cons hd rest =>
        have hmemq : hd.1 ∈ s.queue.map Prod.fst := by
          rw [hq]
          simp
        have hmemi : hd.1 ∈ s.index.map Prod.fst := hinv.1.mem_iff.mpr hmemq
        have hfound : (lookupVal hd.1 s.index).isSome :=
          (lookupVal_isSome_iff hd.1 s.index).mpr hmemi
        obtain ⟨hok, hq2, hidx2⟩ := deleteKey_head hd rest s hq hfound
        have hinv2 : Inv (deleteKey hd.1 s).1 := inv_deleteKey hd.1 s hinv
        have hlen2 : (deleteKey hd.1 s).1.queue.length ≤ fuel := by
          rw [hq2]
          have hl : s.queue.length ≤ fuel + 1 := hfuel
          rw [hq] at hl
          simp only [List.length_cons] at hl
          omega
        have hrec := ih (deleteKey hd.1 s).1 (ev + 1) n hinv2 hlen2 (by omega)
        rw [hq2] at hrec
        have hstep : evictLoop (fuel + 1) n ev s =
            evictLoop fuel n (ev + 1) (deleteKey hd.1 s).1 := by
          simp only [evictLoop, if_pos hlt, hq, hok, if_true]
        rw [hstep]
        refine ⟨?_, ?_, hrec.2.2⟩
        · rw [hrec.1]
          simp only [List.length_cons]
          omega
        · rw [hrec.2.1]
          have hcnt : (min (n - ev) (((hd :: rest).length : Nat) : Int)).toNat =
              (min (n - (ev + 1)) ((rest.length : Nat) : Int)).toNat + 1 := by
            simp only [List.length_cons]
            omega
          rw [hcnt, List.drop_succ_cons]
    · have h2 : evictLoop (fuel + 1) n ev s = (s, ev) := by
        simp only [evictLoop, if_neg hlt]
      rw [h2]
      dsimp only
      have hn0 : min (n - ev) ((s.queue.length : Nat) : Int) = 0 := by omega
      rw [hn0]
      exact ⟨by omega, by simp, hinv⟩

/-- When the count target is already reached the Evict loop exits at once. -/
theorem evictLoop_nonpos (fuel : Nat) (n ev : Int) (s : Cache K V) (hn : ¬ ev < n) :
    evictLoop fuel n ev s = (s, ev) := by
  cases fuel with
  | zero => rfl
  | succ fuel => simp only [evictLoop, if_neg hn]

/-- C8: for every integer n, Evict(n) removes exactly min(n, m) (clamped at
zero) earliest-expiring entries from an m-entry cache and returns that count:
the resulting queue is the original queue with exactly that many leading
nodes dropped, and the index shrinks by the same amount (in particular, when
m < n it removes all m and returns m, on an empty cache it returns 0, and a
non-positive n removes nothing). -/
theorem evict_count_min (n : Int) (s : Cache K V) (hinv : Inv s) :
    (Evict n s).2 = max 0 (min n (s.queue.length : Int)) ∧
    (Evict n s).1.queue = s.queue.drop (max 0 (min n (s.queue.length : Int))).toNat ∧
    (Evict n s).1.index.length =
      s.index.length - (max 0 (min n (s.queue.length : Int))).toNat := by
  have hsame : (Evict n s).2 = (evictLoop s.queue.length n 0 s).2 ∧
      (Evict n s).1.queue = (evictLoop s.queue.length n 0 s).1.queue ∧
      (Evict n s).1.index = (evictLoop s.queue.length n 0 s).1.index := by
    by_cases hc : 0 < (evictLoop s.queue.length n 0 s).2 ∧
        (evictLoop s.queue.length n 0 s).1.queue ≠ []
    · simp [Evict, if_pos hc, setTimer_queue, setTimer_index]
    · simp [Evict, if_neg hc]
  by_cases hn : 0 ≤ n
  · have h := evictLoop_spec s.queue.length s 0 n hinv le_rfl hn
    have hm0 : n - 0 = n := by omega
    have hmax : max 0 (min n (s.queue.length : Int)) = min n (s.queue.length : Int) := by
      have : (0 : Int) ≤ (s.queue.length : Int) := by positivity
      omega
    rw [hmax]
    refine ⟨?_, ?_, ?_⟩
    · rw [hsame.1, h.1, hm0]
      omega
    · rw [hsame.2.1, h.2.1, hm0]
    · have hlen2 : (evictLoop s.queue.length n 0 s).1.index.length =
          (evictLoop s.queue.length n 0 s).1.queue.length := by
        have h2 := h.2.2.1.length_eq
        simpa using h2
      have hlen1 : s.index.length = s.queue.length := by
        have h2 := hinv.1.length_eq
        simpa using h2
      rw [hsame.2.2, hlen2, h.2.1, hm0, List.length_drop]
      omega
  · have h0 := evictLoop_nonpos s.queue.length n 0 s (by omega)
    have hmax : max 0 (min n (s.queue.length : Int)) = 0 := by omega
    rw [hmax]
    refine ⟨?_, ?_, ?_⟩
    · rw [hsame.1, h0]
    · rw [hsame.2.1, h0]
      simp
    · rw [hsame.2.2, h0]
      simp

/-- C8 witness: evicting 3 from a well-formed 2-entry cache removes both
entries and returns 2 = min 3 2. -/
theorem evict_count_min_witness :
    Inv (Set 0 2 22 20 (Set 0 1 11 10 (New : Cache Nat Nat))) ∧
    (Evict 3 (Set 0 2 22 20 (Set 0 1 11 10 (New : Cache Nat Nat)))).2 = 2 := by
  constructor
  · decide
  · have h := evict_count_min 3 (Set 0 2 22 20 (Set 0 1 11 10 (New : Cache Nat Nat)))
      (by decide)
    rw [h.1]
    decide

/-- splitQueue recovers the decomposition of the queue at the node of the
given key. -/
theorem splitQueue_eq (key : K) (q : List (K × Int)) :
    ∀ (p' : List (K × Int)) (old : Int) (suf : List (K × Int)),
      splitQueue key q = some (p', old, suf) → q = p' ++ (key, old) :: suf := by
  induction q with
  | nil => intro p' old suf h; simp [splitQueue] at h
  | cons n rest ih =>
    intro p' old suf h
    rcases n with ⟨n1, n2⟩
    by_cases hn : n1 = key
    · subst hn
      simp [splitQueue] at h
      obtain ⟨h1, h2, h3⟩ := h
      subst h1
      subst h2
      subst h3
      rfl
    · simp only [splitQueue, if_neg hn, Option.map_eq_some'] at h
      obtain ⟨⟨p2, old2, suf2⟩, hx, hmap⟩ := h
      simp only [Prod.mk.injEq] at hmap
      obtain ⟨h1, h2, h3⟩ := hmap
      subst h1
      subst h2
      subst h3
      rw [List.cons_append]
      rw [ih p2 old2 suf2 hx]

/-- On a sorted segment, every entry surviving a dropWhile whose predicate can
only fail on expirations at least e is itself at least e. -/
theorem dropWhile_sorted_bound (pr : K × Int → Bool) (e : Int) (L : List (K × Int))
    (hp : ∀ a : K × Int, pr a = false → e ≤ a.2)
    (hs : L.Pairwise (fun a b => a.2 ≤ b.2)) :
    ∀ b ∈ L.dropWhile pr, e ≤ b.2 := by
  induction L with
  | nil => simp
  | cons x t ih =>
    rw [List.pairwise_cons] at hs
    intro b hb
    cases hx : pr x with
    | true =>
      rw [List.dropWhile_cons_of_pos hx] at hb
      exact ih hs.2 b hb
    | false =>
      rw [List.dropWhile_cons_of_neg (by simp [hx])] at hb
      rcases List.mem_cons.mp hb with hb | hb
      · subst hb
        exact hp b hx
      · exact le_trans (hp x hx) (hs.1 b hb)

/-- Inserting a node between a lower and an upper segment keeps the queue
sorted. -/
theorem sorted_insert_between (k : K) (e : Int) (A B : List (K × Int))
    (hA : A.Pairwise (fun a b => a.2 ≤ b.2)) (hB : B.Pairwise (fun a b => a.2 ≤ b.2))
    (hAe : ∀ a ∈ A, a.2 ≤ e) (hBe : ∀ b ∈ B, e ≤ b.2) :
    (A ++ (k, e) :: B).Pairwise (fun a b => a.2 ≤ b.2) := by
  rw [List.pairwise_append]
  refine ⟨hA, ?_, ?_⟩
  · rw [List.pairwise_cons]
    exact ⟨fun b hb => hBe b hb, hB⟩
  · intro a ha b hb
    rcases List.mem_cons.mp hb with hb | hb
    · subst hb
      exact hAe a ha
    · exact le_trans (hAe a ha) (hBe b hb)

/-- Replacing the queue node (key, old) by (key, e) at a position framed by a
lower segment A and an upper segment B preserves the joint invariant. -/
theorem inv_replace_queue (s : Cache K V) (key : K) (old e : Int)
    (p suf A B : List (K × Int)) (hinv : Inv s)
    (hq : s.queue = p ++ (key, old) :: suf)
    (hAB : A ++ B = p ++ suf)
    (hA : A.Pairwise (fun a b => a.2 ≤ b.2)) (hB : B.Pairwise (fun a b => a.2 ≤ b.2))
    (hAe : ∀ a ∈ A, a.2 ≤ e) (hBe : ∀ b ∈ B, e ≤ b.2)
    (t : Cache K V) (ht_idx : t.index = s.index) (ht_q : t.queue = A ++ (key, e) :: B) :
    Inv t := by
  obtain ⟨hperm, hnodup, hsorted⟩ := hinv
  refine ⟨?_, ?_, ?_⟩
  · rw [ht_idx, ht_q]
    have h1 : (s.index.map Prod.fst).Perm ((p ++ (key, old) :: suf).map Prod.fst) := by
      rw [← hq]
      exact hperm
    have h2 : ((p ++ (key, old) :: suf).map Prod.fst).Perm
        (key :: (p ++ suf).map Prod.fst) := by
      simp only [List.map_append, List.map_cons]
      exact List.perm_middle
    have h3 : ((A ++ (key, e) :: B).map Prod.fst).Perm (key :: (A ++ B).map Prod.fst) := by
      simp only [List.map_append, List.map_cons]
      exact List.perm_middle
    rw [hAB] at h3
    exact (h1.trans h2).trans h3.symm
  · rw [ht_idx]
    exact hnodup
  · rw [ht_q]
    exact sorted_insert_between key e A B hA hB hAe hBe

/-- After the private delete of a key, that key is gone from the index. -/
theorem not_mem_index_deleteKey (key : K) (s : Cache K V) (hinv : Inv s) :
    key ∉ (deleteKey key s).1.index.map Prod.fst := by
  cases hq : s.queue with
  | nil =>
    have hempty : s.index.map Prod.fst = [] := by
      have h := hinv.1
      rw [hq] at h
      simpa using h
    simp [deleteKey, hq, hempty]
  | cons hd rest =>
    cases hlook : lookupVal key s.index with
    | none =>
      simp only [deleteKey, hq, hlook]
      exact (lookupVal_eq_none_iff key s.index).mp hlook
    | some v =>
      simp only [deleteKey, hq, hlook]
      show key ∉ (s.index.eraseP (fun a => a.1 == key)).map Prod.fst
      rw [map_fst_eraseP]
      intro hmem
      exact absurd ((List.Nodup.mem_erase_iff hinv.2.1).mp hmem).1 (by simp)

/-- The insertion stage of Set preserves the invariant when the key is
absent (Set guarantees absence by deleting a pre-existing entry first). -/
theorem inv_setInsert (e : Int) (key : K) (value : V) (s : Cache K V)
    (hinv : Inv s) (habs : key ∉ s.index.map Prod.fst) :
    Inv (setInsert e key value s) := by
  obtain ⟨hperm, hnodup, hsorted⟩ := hinv
  have hidx : (insertVal key value s.index).map Prod.fst
      = s.index.map Prod.fst ++ [key] := by
    rw [insertVal_of_not_mem key value s.index habs]
    simp
  have hidxperm : ((insertVal key value s.index).map Prod.fst).Perm
      (key :: s.index.map Prod.fst) := by
    rw [hidx]
    exact List.perm_append_singleton key (s.index.map Prod.fst)
  have hidxnodup : ((insertVal key value s.index).map Prod.fst).Nodup :=
    hidxperm.symm.nodup (List.nodup_cons.mpr ⟨habs, hnodup⟩)
  cases hq : s.queue with
  | nil =>
    have hempty : s.index.map Prod.fst = [] := by
      have h := hperm
      rw [hq] at h
      simpa using h
    simp only [setInsert, hq]
    refine ⟨?_, ?_, ?_⟩
    · show ((insertVal key value s.index).map Prod.fst).Perm ([(key, e)].map Prod.fst)
      rw [hidx, hempty]
      simp
    · exact hidxnodup
    · show ([(key, e)] : List (K × Int)).Pairwise (fun a b => a.2 ≤ b.2)
      simp
  | cons n rest =>
    rw [hq] at hsorted
    have hchar := scanFromTail_sorted_eq e (key, e) (n :: rest) hsorted
    simp only [setInsert, hq]
    refine ⟨?_, hidxnodup, ?_⟩
    · show ((insertVal key value s.index).map Prod.fst).Perm
        (((scanFromTail e (key, e) ((n :: rest).reverse)).1.reverse).map Prod.fst)
      rw [hchar]
      have h3 : (((n :: rest).takeWhile (fun a => a.2 < e) ++
          (key, e) :: (n :: rest).dropWhile (fun a => a.2 < e)).map Prod.fst).Perm
          (key :: (((n :: rest).takeWhile (fun a => a.2 < e) ++
            (n :: rest).dropWhile (fun a => a.2 < e)).map Prod.fst)) := by
        simp only [List.map_append, List.map_cons]
        exact List.perm_middle
      rw [List.takeWhile_append_dropWhile] at h3
      refine hidxperm.trans (.trans ?_ h3.symm)
      rw [← hq]
      exact hperm.cons key
    · show ((scanFromTail e (key, e) ((n :: rest).reverse)).1.reverse).Pairwise
        (fun a b => a.2 ≤ b.2)
      rw [hchar]
      apply sorted_insert_between
      · exact List.Pairwise.sublist (List.takeWhile_sublist _) hsorted
      · exact List.Pairwise.sublist (List.dropWhile_sublist _) hsorted
      · intro a ha
        have := List.mem_takeWhile_imp ha
        simp only [decide_eq_true_eq] at this
        omega
      · exact dropWhile_sorted_bound _ e (n :: rest) (fun a hf => by
          simp only [decide_eq_false_iff_not] at hf
          omega) hsorted

/-- Set preserves the invariant. -/
theorem inv_Set (now : Int) (key : K) (value : V) (ttl : Int) (s : Cache K V)
    (hinv : Inv s) : Inv (Set now key value ttl s) := by
  unfold Set
  cases hlook : lookupVal key s.index with
  | some v =>
    simp only [hlook, Option.isSome_some, if_true]
    exact inv_setInsert _ _ _ _ (inv_deleteKey key s hinv) (not_mem_index_deleteKey key s hinv)
  | none =>
    simp only [hlook, Option.isSome_none, Bool.false_eq_true, if_false]
    exact inv_setInsert _ _ _ _ hinv ((lookupVal_eq_none_iff key s.index).mp hlook)

/-- Swap preserves the invariant: the queue is untouched and the index keeps
the same key list. -/
theorem inv_Swap (key : K) (value : V) (s : Cache K V) (hinv : Inv s) :
    Inv (Swap key value s).2.2 := by
  cases hlook : lookupVal key s.index with
  | none => simpa [Swap, hlook] using hinv
  | some v =>
    simp only [Swap, hlook]
    obtain ⟨hperm, hnodup, hsorted⟩ := hinv
    have hmem : key ∈ s.index.map Prod.fst := by
      rw [← lookupVal_isSome_iff, hlook]
      rfl
    have hkeys := map_fst_insertVal_of_mem key value s.index hmem
    refine ⟨?_, ?_, hsorted⟩
    · show ((insertVal key value s.index).map Prod.fst).Perm (s.queue.map Prod.fst)
      rw [hkeys]
      exact hperm
    · show ((insertVal key value s.index).map Prod.fst).Nodup
      rw [hkeys]
      exact hnodup

/-- Delete preserves the invariant. -/
theorem inv_Delete (key : K) (s : Cache K V) (hinv : Inv s) : Inv (Delete key s).1 := by
  simp only [Delete]
  split
  · exact inv_setTimer _ (inv_deleteKey key s hinv)
  · exact inv_deleteKey key s hinv

/-- GetAndDelete preserves the invariant. -/
theorem inv_GetAndDelete (key : K) (s : Cache K V) (hinv : Inv s) :
    Inv (GetAndDelete key s).2.2 := by
  cases hlook : lookupVal key s.index with
  | none => simpa [GetAndDelete, hlook] using hinv
  | some v =>
    simp only [GetAndDelete, hlook]
    exact inv_deleteKey key s hinv

/-- Update preserves the invariant (it changes nothing at all). -/
theorem inv_Update (key : K) (value : V) (s : Cache K V) (hinv : Inv s) :
    Inv (Update key value s).1 := by
  cases hlook : lookupVal key s.index <;> simpa [Update, hlook] using hinv

/-- Every iteration of the Evict loop preserves the invariant. -/
theorem inv_evictLoop (fuel : Nat) :
    ∀ (s : Cache K V) (ev n : Int), Inv s → Inv (evictLoop fuel n ev s).1 := by
  induction fuel with
  | zero => intro s ev n hinv; exact hinv
  | succ fuel ih =>
    intro s ev n hinv
    by_cases hlt : ev < n
    · cases hq : s.queue with
      | nil =>
        have h2 : evictLoop (fuel + 1) n ev s = (s, ev) := by
          simp only [evictLoop, if_pos hlt, hq]
        rw [h2]
        exact hinv
      | cons hd rest =>
        cases hok : (deleteKey hd.1 s).2 with
        | false =>
          have h2 : evictLoop (fuel + 1) n ev s = (s, ev) := by
            simp only [evictLoop, if_pos hlt, hq, hok, Bool.false_eq_true, if_false]
          rw [h2]
          exact hinv
        | true =>
          have h2 : evictLoop (fuel + 1) n ev s =
              evictLoop fuel n (ev + 1) (deleteKey hd.1 s).1 := by
            simp only [evictLoop, if_pos hlt, hq, hok, if_true]
          rw [h2]
          exact ih _ _ _ (inv_deleteKey hd.1 s hinv)
    · have h2 : evictLoop (fuel + 1) n ev s = (s, ev) := by
        simp only [evictLoop, if_neg hlt]
      rw [h2]
      exact hinv

/-- Evict preserves the invariant. -/
theorem inv_Evict (n : Int) (s : Cache K V) (hinv : Inv s) : Inv (Evict n s).1 := by
  simp only [Evict]
  split
  · exact inv_setTimer _ (inv_evictLoop _ _ _ _ hinv)
  · exact inv_evictLoop _ _ _ _ hinv

/-- A natural firing of the timer preserves the invariant: it removes the
head key from the map and the head node from the queue. -/
theorem inv_tickerFire (s : Cache K V) (hinv : Inv s) : Inv (tickerFire s) := by
  cases hq : s.queue with
  | nil => simpa [tickerFire, hq] using hinv
  | cons hd rest =>
    obtain ⟨hperm, hnodup, hsorted⟩ := hinv
    have hinv1 : Inv ⟨s.index.eraseP (fun a => a.1 == hd.1), rest, s.timer⟩ := by
      refine ⟨?_, ?_, ?_⟩
      · show ((s.index.eraseP (fun a => a.1 == hd.1)).map Prod.fst).Perm (rest.map Prod.fst)
        rw [map_fst_eraseP]
        have h2 : ((s.queue.map Prod.fst).erase hd.1).Perm (rest.map Prod.fst) := by
          rw [hq]
          simp [List.erase_cons_head]
        exact (hperm.erase hd.1).trans h2
      · show ((s.index.eraseP (fun a => a.1 == hd.1)).map Prod.fst).Nodup
        rw [map_fst_eraseP]
        exact List.Nodup.erase hd.1 hnodup
      · show rest.Pairwise (fun a b => a.2 ≤ b.2)
        rw [hq] at hsorted
        exact (List.pairwise_cons.mp hsorted).2
    cases rest with
    | nil =>
      have h2 : tickerFire s = ⟨s.index.eraseP (fun a => a.1 == hd.1), [], s.timer⟩ := by
        simp [tickerFire, hq]
      rw [h2]
      exact hinv1
    | cons m t =>
      have h2 : tickerFire s =
          setTimer ⟨s.index.eraseP (fun a => a.1 == hd.1), m :: t, s.timer⟩ := by
        simp [tickerFire, hq]
      rw [h2]
      exact inv_setTimer _ hinv1

/-- Arming the timer, or not, does not affect the invariant. -/
theorem inv_ite_setTimer (c : Prop) [Decidable c] (s : Cache K V) (hinv : Inv s) :
    Inv (if c then setTimer s else s) := by
  split
  · exact inv_setTimer s hinv
  · exact hinv

/-- Refresh, when it completes without fault, preserves the invariant: the
repositioned node carries the same key, so the key sets are unchanged, and
both scan directions insert the node between a segment of expirations at most
the new one and a segment of expirations at least the new one. -/
theorem inv_Refresh (now : Int) (key : K) (ttl : Int) (s : Cache K V) (hinv : Inv s)
    (r : Cache K V × Bool) (h : Refresh now key ttl s = .ok r) : Inv r.1 := by
  cases hlook : lookupVal key s.index with
  | none =>
    simp only [Refresh, hlook, Except.ok.injEq] at h
    rw [← h]
    exact hinv
  | some v =>
    cases hsplit : splitQueue key s.queue with
    | none =>
      simp [Refresh, hlook, hsplit] at h
    | some triple =>
      obtain ⟨p, old, suf⟩ := triple
      simp only [Refresh, hlook, hsplit] at h
      have hq : s.queue = p ++ (key, old) :: suf := splitQueue_eq key s.queue p old suf hsplit
      have hsorted := hinv.2.2
      rw [hq] at hsorted
      obtain ⟨hp_sorted, hmid, hcross⟩ := List.pairwise_append.mp hsorted
      have hsuf_sorted : suf.Pairwise (fun a b => a.2 ≤ b.2) := (List.pairwise_cons.mp hmid).2
      have hold_suf : ∀ b ∈ suf, old ≤ b.2 := (List.pairwise_cons.mp hmid).1
      have hp_old : ∀ a ∈ p, a.2 ≤ old := fun a ha =>
        hcross a ha (key, old) (List.mem_cons_self _ _)
      have hp_suf : ∀ a ∈ p, ∀ b ∈ suf, a.2 ≤ b.2 := fun a ha b hb =>
        hcross a ha b (List.mem_cons_of_mem _ hb)
      cases suf with
      | nil =>
        cases hrev : p.reverse with
        | nil =>
          simp [hrev] at h
        | cons pn prest =>
          have hp : p = prest.reverse ++ [pn] := by
            have h2 := congrArg List.reverse hrev
            simpa using h2
          have hpn_mem : pn ∈ p := by
            rw [hp]
            simp
          simp only [hrev, Except.ok.injEq] at h
          rw [← h]
          dsimp only
          apply inv_ite_setTimer
          by_cases hdir : old < now + ttl
          · rw [if_pos hdir]
            have hscan : scanTowardTail (now + ttl) (key, now + ttl) [pn] =
                [pn, (key, now + ttl)] := by
              have h1 := hp_old pn hpn_mem
              simp [scanTowardTail, show ¬ now + ttl < pn.2 by omega]
            rw [hscan]
            refine inv_replace_queue s key old (now + ttl) p [] p [] hinv hq (by simp)
              hp_sorted (by simp)
              (fun a ha => by have h1 := hp_old a ha; omega) (by simp) _ rfl ?_
            show prest.reverse ++ [pn, (key, now + ttl)] = p ++ (key, now + ttl) :: []
            rw [hp]
            simp
          · rw [if_neg hdir]
            have hrw : pn :: prest = p.reverse := hrev.symm
            rw [hrw, scanFromTail_sorted_eq _ _ _ hp_sorted]
            refine inv_replace_queue s key old (now + ttl) p []
              (p.takeWhile (fun a => a.2 < now + ttl))
              (p.dropWhile (fun a => a.2 < now + ttl)) hinv hq
              (by simp [List.takeWhile_append_dropWhile]) ?_ ?_ ?_ ?_ _ rfl rfl
            · exact List.Pairwise.sublist (List.takeWhile_sublist _) hp_sorted
            · exact List.Pairwise.sublist (List.dropWhile_sublist _) hp_sorted
            · intro a ha
              have h1 := List.mem_takeWhile_imp ha
              simp only [decide_eq_true_eq] at h1
              omega
            · exact dropWhile_sorted_bound _ (now + ttl) p (fun a hf => by
                simp only [decide_eq_false_iff_not] at hf
                omega) hp_sorted
      | cons sn srest =>
        have hsn : old ≤ sn.2 := hold_suf sn (List.mem_cons_self _ _)
        simp only [Except.ok.injEq] at h
        rw [← h]
        dsimp only
        apply inv_ite_setTimer
        by_cases hdir : old < now + ttl
        · rw [if_pos hdir]
          rw [scanTowardTail_eq]
          refine inv_replace_queue s key old (now + ttl) p (sn :: srest)
            (p ++ (sn :: srest).takeWhile (fun a => a.2 ≤ now + ttl))
            ((sn :: srest).dropWhile (fun a => a.2 ≤ now + ttl)) hinv hq
            ?_ ?_ ?_ ?_ ?_ _ rfl (by simp [List.append_assoc])
          · rw [List.append_assoc, List.takeWhile_append_dropWhile]
          · rw [List.pairwise_append]
            refine ⟨hp_sorted, List.Pairwise.sublist (List.takeWhile_sublist _) hsuf_sorted, ?_⟩
            intro a ha b hb
            exact hp_suf a ha b ((List.takeWhile_sublist _).subset hb)
          · exact List.Pairwise.sublist (List.dropWhile_sublist _) hsuf_sorted
          · intro a ha
            rcases List.mem_append.mp ha with ha | ha
            · have h1 := hp_old a ha
              omega
            · have h1 := List.mem_takeWhile_imp ha
              simp only [decide_eq_true_eq] at h1
              omega
          · exact dropWhile_sorted_bound _ (now + ttl) (sn :: srest) (fun a hf => by
              simp only [decide_eq_false_iff_not] at hf
              omega) hsuf_sorted
        · rw [if_neg hdir]
          have hrw : sn :: p.reverse = (p ++ [sn]).reverse := by simp
          rw [hrw]
          have hsorted2 : (p ++ [sn]).Pairwise (fun a b => a.2 ≤ b.2) := by
            rw [List.pairwise_append]
            refine ⟨hp_sorted, by simp, ?_⟩
            intro a ha b hb
            simp only [List.mem_singleton] at hb
            subst hb
            have h1 := hp_old a ha
            omega
          rw [scanFromTail_sorted_eq _ _ _ hsorted2,
            takeWhile_concat_of_neg _ p sn (by
              simp only [decide_eq_false_iff_not]
              omega),
            dropWhile_concat_of_neg _ p sn (by
              simp only [decide_eq_false_iff_not]
              omega)]
          refine inv_replace_queue s key old (now + ttl) p (sn :: srest)
            (p.takeWhile (fun a => a.2 < now + ttl))
            (p.dropWhile (fun a => a.2 < now + ttl) ++ sn :: srest) hinv hq
            ?_ ?_ ?_ ?_ ?_ _ rfl (by simp [List.append_assoc])
          · rw [← List.append_assoc, List.takeWhile_append_dropWhile]
          · exact List.Pairwise.sublist (List.takeWhile_sublist _) hp_sorted
          · rw [List.pairwise_append]
            refine ⟨List.Pairwise.sublist (List.dropWhile_sublist _) hp_sorted,
              hsuf_sorted, ?_⟩
            intro a ha b hb
            exact hp_suf a ((List.dropWhile_sublist _).subset ha) b hb
          · intro a ha
            have h1 := List.mem_takeWhile_imp ha
            simp only [decide_eq_true_eq] at h1
            omega
          · intro b hb
            rcases List.mem_append.mp hb with hb | hb
            · exact dropWhile_sorted_bound _ (now + ttl) p (fun a hf => by
                simp only [decide_eq_false_iff_not] at hf
                omega) hp_sorted b hb
            · have h1 := hold_suf b hb
              omega

/-- The empty cache satisfies the invariant. -/
theorem inv_New : Inv (New : Cache K V) :=
  ⟨List.Perm.refl _, List.nodup_nil, List.Pairwise.nil⟩

/-- Every completed operation preserves the invariant. -/
theorem inv_applyOp (op : Op K V) (s : Cache K V) (hinv : Inv s) : Inv (applyOp op s) := by
  cases op with
  | set now key value ttl => exact inv_Set now key value ttl s hinv
  | get key => exact hinv
  | swap key value => exact inv_Swap key value s hinv
  | delete key => exact inv_Delete key s hinv
  | getAndDelete key => exact inv_GetAndDelete key s hinv
  | update key value => exact inv_Update key value s hinv
  | refresh now key ttl =>
    simp only [applyOp]
    cases hres : Refresh now key ttl s with
    | ok r => exact inv_Refresh now key ttl s hinv r hres
    | error e => exact hinv
  | evict n => exact inv_Evict n s hinv
  | fire => exact inv_tickerFire s hinv

/-- Any sequence of completed operations preserves the invariant. -/
theorem inv_run (ops : List (Op K V)) : ∀ s : Cache K V, Inv s → Inv (run ops s) := by
  induction ops with
  | nil => intro s hinv; exact hinv
  | cons op rest ih =>
    intro s hinv
    exact ih _ (inv_applyOp op s hinv)

/-- C7: after any sequence of completed operations starting from the empty
cache — in particular after any sequence of Set calls — the index and the
queue have the same number of entries, every index entry resolves to a queue
node carrying the same key, and traversing the queue head to tail yields
non-decreasing expiration timestamps. -/
theorem run_keeps_index_queue_aligned (ops : List (Op K V)) :
    (run ops (New : Cache K V)).index.length = (run ops (New : Cache K V)).queue.length ∧
    (∀ a ∈ (run ops (New : Cache K V)).index,
      ∃ b ∈ (run ops (New : Cache K V)).queue, b.1 = a.1) ∧
    (run ops (New : Cache K V)).queue.Pairwise (fun a b => a.2 ≤ b.2) := by
  obtain ⟨hperm, hnodup, hsorted⟩ := inv_run ops (New : Cache K V) inv_New
  refine ⟨?_, ?_, hsorted⟩
  · have h := hperm.length_eq
    simpa using h
  · intro a ha
    have hmem : a.1 ∈ (run ops (New : Cache K V)).queue.map Prod.fst :=
      hperm.mem_iff.mp (List.mem_map_of_mem Prod.fst ha)
    obtain ⟨b, hb, hb1⟩ := List.mem_map.mp hmem
    exact ⟨b, hb, hb1⟩

/-- C9: Swap on a present key returns the old value and true and replaces the
stored value in place — the queue (hence the node position and expiration)
and the timer are untouched, the key now maps to the new value, and every
other key still maps to its old value; on an absent key it returns the
new-value argument and false with the state unchanged. -/
theorem swap_spec (key : K) (value : V) (s : Cache K V) :
    (∀ oldValue, lookupVal key s.index = some oldValue →
      Swap key value s = (oldValue, true, ⟨insertVal key value s.index, s.queue, s.timer⟩) ∧
      lookupVal key (insertVal key value s.index) = some value ∧
      ∀ k2, k2 ≠ key → lookupVal k2 (insertVal key value s.index) = lookupVal k2 s.index) ∧
    (lookupVal key s.index = none → Swap key value s = (value, false, s)) := by
  constructor
  · intro oldValue hfound
    refine ⟨?_, lookupVal_insertVal_self key value s.index, ?_⟩
    · simp [Swap, hfound]
    · intro k2 hk2
      exact lookupVal_insertVal_ne k2 key value s.index hk2
  · intro hnone
    simp [Swap, hnone]

/-- C9 witness: the Swap contract applied at a concrete present key. -/
theorem swap_spec_witness :
    lookupVal 1 (Set 0 1 11 10 (New : Cache Nat Nat)).index = some 11 ∧
    Swap 1 99 (Set 0 1 11 10 (New : Cache Nat Nat)) =
      (11, true, ⟨[(1, 99)], [(1, 10)], some 10⟩) := by
  refine ⟨rfl, ?_⟩
  exact ((swap_spec 1 99 (Set 0 1 11 10 (New : Cache Nat Nat))).1 11 rfl).1

/-- C10: when the per-key loop of Range reaches a snapshotted key that has
since been deleted from the index — whatever the current state is, including
states produced by the callback itself deleting a later key — the callback is
still invoked for that key, its trace entry carrying the zero value of the
value type, rather than the key being skipped.  (Range runs exactly this loop
on the head-to-tail key snapshot.) -/
theorem rangeLoop_visits_absent_key_with_default
    (fn : K → V → Cache K V → Bool × Cache K V) (c : K) (rest : List K) (s : Cache K V)
    (habsent : lookupVal c s.index = none) :
    (rangeLoop fn (c :: rest) s).1.head? = some (c, (default : V)) ∧
    ∀ t : Cache K V, Range fn t = (rangeLoop fn (t.queue.map Prod.fst) t).2 := by
  constructor
  · show (rangeLoop fn (c :: rest) s).1.head? = some (c, (default : V))
    simp only [rangeLoop, habsent, Option.getD_none]
    cases h : (fn c default s).1 <;> simp
  · intro t
    rfl

/-- C10 witness: the loop reaching key 1, absent from the empty cache, still
calls the callback with (1, 0). -/
theorem rangeLoop_visits_absent_key_with_default_witness :
    lookupVal 1 (New : Cache Nat Nat).index = none ∧
    (rangeLoop (fun _ _ s => (true, s)) [1] (New : Cache Nat Nat)).1.head? = some (1, 0) := by
  refine ⟨rfl, ?_⟩
  exact (rangeLoop_visits_absent_key_with_default (fun _ _ s => (true, s)) 1 [] New rfl).1

end GoMcache
